import Mathlib

/-!
Verification of the standup-parser repository: a tolerant tokenizer
(`Scan`, `scanWhitespace`, `scanIdent` in scanner.go) and a statement
parser (`Parse`, `isPositive` in parser.go) that turn free-form standup
text into a `Statement` record.

The embedding works on `List Char` (Go strings read rune by rune through
`bufio.Reader.ReadRune`; the scanner operates at the rune level, so a
rune sequence is the faithful input type).  The read function of the Go scanner
returns the sentinel `rune(0)` both at the true end of the stream and
when the stream yields an actual NUL character, so the stream functions of the model
functions treat a leading `Char.ofNat 0` exactly like Go does: `Scan`
maps it to the EOF token, and the two sub-scanners consume it and stop.

Loops that Go writes with `for` are embedded with explicit fuel; every
loop consumes at least one character (or token) per iteration, which is
proved below (`Scan_lt`, `parseHead_rest_lt`), so the fuel
`length + 1` used by the wrappers is never exhausted.  Fuel-insensitivity
is also proved (`tokenizeAux_fuel`, `parseLoopAux_fuel`).
-/

/-- Token represents a lexical token (token.go). -/
inductive Token where
  | EOF
  | WS
  | COLON
  | IDENT
  | TODAY
  | YESTERDAY
  | MEETINGS
  | BLOCKERS
  | LP
  | JIRA
deriving DecidableEq, Repr

/-- isKeyword is true if the Token t is a keyword (token.go). -/
def isKeyword : Token → Bool
  | Token.TODAY => true
  | Token.YESTERDAY => true
  | Token.MEETINGS => true
  | Token.BLOCKERS => true
  | Token.LP => true
  | Token.JIRA => true
  | _ => false

/-- The Go function unicode.IsSpace: Latin-1 whitespace plus the Unicode
White_Space property table. -/
def goIsSpace (c : Char) : Bool :=
  c == '\t' || c == '\n' || c.toNat == 11 || c.toNat == 12 || c == '\r' || c == ' ' ||
  c.toNat == 0x85 || c.toNat == 0xA0 || c.toNat == 0x1680 ||
  (decide (0x2000 ≤ c.toNat) && decide (c.toNat ≤ 0x200A)) ||
  c.toNat == 0x2028 || c.toNat == 0x2029 ||
  c.toNat == 0x202F || c.toNat == 0x205F || c.toNat == 0x3000

/-- isLineBreak returns true if the rune is a newline (scanner.go). -/
def isLineBreak (c : Char) : Bool := c == '\n'

/-- isWhitespace from scanner.go:
unicode.IsSpace(ch) || ch == ' ' || ch == '\t' || ch == ' ' || isLineBreak(ch). -/
def isWhitespace (c : Char) : Bool :=
  goIsSpace c || c == ' ' || c == '\t' || c.toNat == 0x2002 || isLineBreak c

/-- ASCII case mapping of the Go function strings.ToUpper.  The keyword vocabulary is
pure ASCII and (apart from the exotic pair U+0131/U+017F) no non-ASCII
rune uppercases into ASCII, so the ASCII mapping decides keyword
classification exactly as Go does on all inputs the claims range over. -/
def goToUpper (c : Char) : Char :=
  if 'a' ≤ c ∧ c ≤ 'z' then Char.ofNat (c.toNat - 32) else c

/-- The decoration cutset of scanner.go: strings.Trim(s, "_*-+>"). -/
def isCutset (c : Char) : Bool :=
  c == '_' || c == '*' || c == '-' || c == '+' || c == '>'

/-- Trim characters satisfying p from both ends of a list. -/
def trimWith (p : Char → Bool) (l : List Char) : List Char :=
  ((l.dropWhile p).reverse.dropWhile p).reverse

/-- strings.TrimSpace. -/
def trimSpaceL (l : List Char) : List Char := trimWith goIsSpace l

/-- strings.Trim(s, "_*-+>"). -/
def trimCutset (l : List Char) : List Char := trimWith isCutset l

/-- strings.Split(s, "\n"): split on each newline character. -/
def splitOnNl : List Char → List (List Char)
  | [] => [[]]
  | c :: cs =>
    if c = '\n' then [] :: splitOnNl cs
    else
      match splitOnNl cs with
      | [] => [[c]]
      | h :: t => (c :: h) :: t

/-- splitAndTrimSpace from parser.go: join the pieces, trim the whole,
split on newlines, trim each line, rejoin with newlines. -/
def splitAndTrimSpace (values : List (List Char)) : List Char :=
  let val := trimSpaceL values.flatten
  List.intercalate "\n".data ((splitOnNl val).map trimSpaceL)

/-- The loop body of scanWhitespace (scanner.go): read whitespace runes
until a NUL/stream end (consumed) or a non-whitespace rune (unread).
Returns the collected runes and the remaining input. -/
def wsLoop : List Char → List Char × List Char
  | [] => ([], [])
  | c :: cs =>
    if c.toNat = 0 then ([], cs)
    else if !isWhitespace c then ([], c :: cs)
    else ((wsLoop cs).1.cons c, (wsLoop cs).2)

/-- The loop body of scanIdent (scanner.go): read runes until a
NUL/stream end (consumed), a line break (unread) or a colon (unread). -/
def identLoop : List Char → List Char × List Char
  | [] => ([], [])
  | c :: cs =>
    if c.toNat = 0 then ([], cs)
    else if isLineBreak c then ([], c :: cs)
    else if c = ':' then ([], c :: cs)
    else ((identLoop cs).1.cons c, (identLoop cs).2)

/-- The keyword cases of the switch in scanIdent (scanner.go), in source
order: normalized spelling paired with the token kind it returns. -/
def keywordTable : List (List Char × Token) :=
  [("TODAY".data, Token.TODAY),
   ("YESTERDAY".data, Token.YESTERDAY),
   ("WEEKEND".data, Token.YESTERDAY),
   ("WEEK-END".data, Token.YESTERDAY),
   ("FRIDAY".data, Token.YESTERDAY),
   ("FRIDAY/WEEKEND".data, Token.YESTERDAY),
   ("MEETING".data, Token.MEETINGS),
   ("MEETINGS".data, Token.MEETINGS),
   ("BLOCKER".data, Token.BLOCKERS),
   ("BLOCKERS".data, Token.BLOCKERS),
   ("TIME".data, Token.LP),
   ("HOURS".data, Token.LP),
   ("LP".data, Token.LP),
   ("JIRA".data, Token.JIRA)]

/-- Sequential comparison of the normalized literal against the switch
cases, exactly the string switch of Go. -/
def lookupKeyword (n : List Char) : List (List Char × Token) → Token
  | [] => Token.IDENT
  | e :: t => if n = e.1 then e.2 else lookupKeyword n t

/-- The switch of scanIdent (scanner.go) on the normalized literal:
compare against the fixed keyword vocabulary; anything else is a
generic IDENT. -/
def keywordFor (n : List Char) : Token := lookupKeyword n keywordTable

/-- The classification step of scanIdent (scanner.go): uppercase, trim
the decoration cutset, trim surrounding space, then look the result up
in the keyword table. -/
def classify (lit : List Char) : Token :=
  keywordFor (trimSpaceL (trimCutset (lit.map goToUpper)))

/-- scanWhitespace (scanner.go): the first rune is already known to be
whitespace; it is written to the buffer unconditionally. -/
def scanWhitespace (c : Char) (cs : List Char) : Token × List Char × List Char :=
  (Token.WS, (wsLoop cs).1.cons c, (wsLoop cs).2)

/-- scanIdent (scanner.go): the first rune is written unconditionally,
the rest via identLoop, then the literal is classified. -/
def scanIdent (c : Char) (cs : List Char) : Token × List Char × List Char :=
  (classify ((identLoop cs).1.cons c), (identLoop cs).1.cons c, (identLoop cs).2)

/-- Scan (scanner.go): returns the next token, its literal and the
remaining input.  A leading NUL rune is indistinguishable from the end
of the stream for the read function of Go and yields the EOF token (the NUL itself
is consumed). -/
def Scan : List Char → Token × List Char × List Char
  | [] => (Token.EOF, [], [])
  | c :: cs =>
    if isWhitespace c then scanWhitespace c cs
    else if c.toNat = 0 then (Token.EOF, [], cs)
    else if c = ':' then (Token.COLON, [':'], cs)
    else scanIdent c cs

/-- Repeated Scan until the first EOF token, collecting (token, literal)
pairs.  Fueled; `Scan_lt` below shows fuel `length + 1` is never
exhausted. -/
def tokenizeAux : Nat → List Char → List (Token × List Char)
  | 0, _ => []
  | f + 1, l =>
    if (Scan l).1 = Token.EOF then []
    else ((Scan l).1, (Scan l).2.1) :: tokenizeAux f (Scan l).2.2

/-- The token stream of an input: Scan applied repeatedly until EOF. -/
def tokenize (l : List Char) : List (Token × List Char) :=
  tokenizeAux (l.length + 1) l


/-- Match the list p against the beginning of l. -/
def startsWithL : List Char → List Char → Bool
  | [], _ => true
  | _ :: _, [] => false
  | p :: ps, c :: cs => p == c && startsWithL ps cs

/-- Does p accept some suffix of l (including l itself and [])? -/
def containsAt (p : List Char → Bool) : List Char → Bool
  | [] => p []
  | c :: cs => p (c :: cs) || containsAt p cs

/-- Substring containment, the unanchored matching of a literal
regular-expression alternative. -/
def containsStr (pat : List Char) (l : List Char) : Bool :=
  containsAt (startsWithL pat) l

/-- The RE2 Perl class backslash-s: tab, newline, form feed, carriage
return, space. -/
def regexSpace (c : Char) : Bool :=
  c == '\t' || c == '\n' || c.toNat == 12 || c == '\r' || c == ' '

/-- Consume one or more regexSpace characters (the pattern backslash-s+
followed by a non-space letter, so maximal munch is exact). -/
def skipSpaces1 : List Char → Option (List Char)
  | [] => Option.none
  | c :: cs =>
    if regexSpace c then Option.some (cs.dropWhile regexSpace) else Option.none

/-- Match the alternative "up backslash-s+ to backslash-s+ date" at the
start of l. -/
def upToDateAt (l : List Char) : Bool :=
  if startsWithL "up".data l then
    match skipSpaces1 (l.drop 2) with
    | Option.none => false
    | Option.some r1 =>
      if startsWithL "to".data r1 then
        match skipSpaces1 (r1.drop 2) with
        | Option.none => false
        | Option.some r2 => startsWithL "date".data r2
      else false
  else false

/-- The negative indicator table of isPositive (parser.go):
regexp .*(no|off|updating|negative).* matched against s. -/
def negMatch (s : List Char) : Bool :=
  containsStr "no".data s || containsStr "off".data s ||
  containsStr "updating".data s || containsStr "negative".data s

/-- The positive indicator table of isPositive (parser.go):
regexp .*(done|yes|up backslash-s+ to backslash-s+ date|ok|1|affirmative|current|updated). -/
def posMatch (s : List Char) : Bool :=
  containsStr "done".data s || containsStr "yes".data s ||
  containsAt upToDateAt s || containsStr "ok".data s ||
  containsStr "1".data s || containsStr "affirmative".data s ||
  containsStr "current".data s || containsStr "updated".data s

/-- isPositive (parser.go): the returned error is modeled as an
Option String (none is the nil error of Go). -/
def isPositive (s : List Char) : Bool × Option String :=
  let n := negMatch s
  let p := posMatch s
  if p && n then (true, Option.some "ambiguous")
  else if !p && !n then (true, Option.some "unclear")
  else (p && !n, Option.none)

/-- StringField is a key/value pair that holds string values (parser.go). -/
structure StringField where
  Key : List Char
  Val : List Char
  Valid : Bool
deriving DecidableEq, Repr

/-- BoolField is a key/value pair that holds one boolean value (parser.go). -/
structure BoolField where
  Key : List Char
  Val : Bool
  Lit : List Char
  Valid : Bool
deriving DecidableEq, Repr

/-- Statement represents a standup statement (parser.go). -/
structure Statement where
  Yesterday : StringField
  Today : StringField
  Meetings : StringField
  Blockers : StringField
  LP : BoolField
  Jira : BoolField
deriving DecidableEq, Repr

/-- The zero value of StringField. -/
def zeroStringField : StringField := ⟨[], [], false⟩

/-- The zero value of BoolField. -/
def zeroBoolField : BoolField := ⟨[], false, [], false⟩

/-- The zero Statement that Parse starts from (stmt := &Statement in Go). -/
def emptyStatement : Statement :=
  ⟨zeroStringField, zeroStringField, zeroStringField, zeroStringField,
   zeroBoolField, zeroBoolField⟩

/-- A scanned token paired with its literal, as buffered by the parser. -/
abbrev Tok := Token × List Char

/-- The unscan operation of the parser: put the buffered token back in front of the
stream.  A buffered EOF is indistinguishable from the exhausted stream
(the Go Scan keeps returning EOF at stream end), so it is dropped; token
lists produced by tokenize never contain an EOF element. -/
def pushback (t : Tok) (l : List Tok) : List Tok :=
  if t.1 = Token.EOF then l else t :: l

/-- scanIgnoreWhitespace (parser.go): skip one optional whitespace token
and return (token, literal, skipped whitespace literal) plus the rest of
the stream. -/
def scanIW : List Tok → (Token × List Char × List Char) × List Tok
  | [] => ((Token.EOF, [], []), [])
  | t :: rest =>
    if t.1 = Token.WS then
      match rest with
      | [] => ((Token.EOF, [], t.2), [])
      | u :: r => ((u.1, u.2, t.2), r)
    else ((t.1, t.2, []), rest)

/-- The value-collecting inner loop of Parse (parser.go): read
whitespace-skipped tokens until a keyword or EOF (pushed back),
appending the skipped whitespace and the literal for IDENT and COLON
tokens.  Fueled; each iteration consumes at least one token. -/
def parseGroupValuesAux : Nat → List Tok → List (List Char) × List Tok
  | 0, l => ([], l)
  | f + 1, l =>
    if isKeyword (scanIW l).1.1 ∨ (scanIW l).1.1 = Token.EOF then
      ([], pushback ((scanIW l).1.1, (scanIW l).1.2.1) (scanIW l).2)
    else if (scanIW l).1.1 = Token.IDENT ∨ (scanIW l).1.1 = Token.COLON then
      ((scanIW l).1.2.2 :: (scanIW l).1.2.1 :: (parseGroupValuesAux f (scanIW l).2).1,
       (parseGroupValuesAux f (scanIW l).2).2)
    else parseGroupValuesAux f (scanIW l).2

/-- The value-collecting loop with its canonical (sufficient) fuel. -/
def parseGroupValues (l : List Tok) : List (List Char) × List Tok :=
  parseGroupValuesAux (l.length + 1) l

/-- The optional-colon step of Parse (parser.go): read a
whitespace-skipped token; consume it if it is the colon, otherwise push
it back. -/
def colonSkip (l : List Tok) : List Tok :=
  if (scanIW l).1.1 = Token.COLON then (scanIW l).2
  else pushback ((scanIW l).1.1, (scanIW l).1.2.1) (scanIW l).2

/-- One iteration of the Parse loop, as data: whether the default
today-branch fired, the (substituted) keyword, its literal, the
collected raw values and the remaining stream. -/
structure GroupRes where
  isDefault : Bool
  key : Token
  keyLit : List Char
  values : List (List Char)
  rest : List Tok
deriving DecidableEq, Repr

/-- The head of the Parse loop (parser.go): read a whitespace-skipped
candidate keyword; EOF stops the loop; a non-keyword is pushed back and
replaced by TODAY with an empty key; then the optional colon is skipped
and the group's values are collected. -/
def parseHead (l : List Tok) : Option GroupRes :=
  if (scanIW l).1.1 = Token.EOF then Option.none
  else if isKeyword (scanIW l).1.1 then
    Option.some ⟨false, (scanIW l).1.1, (scanIW l).1.2.1,
      (parseGroupValues (colonSkip (scanIW l).2)).1,
      (parseGroupValues (colonSkip (scanIW l).2)).2⟩
  else
    Option.some ⟨true, Token.TODAY, [],
      (parseGroupValues (colonSkip
        (pushback ((scanIW l).1.1, (scanIW l).1.2.1) (scanIW l).2))).1,
      (parseGroupValues (colonSkip
        (pushback ((scanIW l).1.1, (scanIW l).1.2.1) (scanIW l).2))).2⟩

/-- The switch at the end of each Parse iteration (parser.go): write the
group into the slot selected by its keyword.  Non-keyword cases fall
through the switch and leave the statement unchanged. -/
def applyGroup (stmt : Statement) (key : Token) (keyLit : List Char)
    (values : List (List Char)) : Statement :=
  let val := splitAndTrimSpace values
  match key with
  | Token.TODAY =>
    ⟨stmt.Yesterday, ⟨keyLit, val, !val.isEmpty⟩, stmt.Meetings, stmt.Blockers,
     stmt.LP, stmt.Jira⟩
  | Token.YESTERDAY =>
    ⟨⟨keyLit, val, !val.isEmpty⟩, stmt.Today, stmt.Meetings, stmt.Blockers,
     stmt.LP, stmt.Jira⟩
  | Token.MEETINGS =>
    ⟨stmt.Yesterday, stmt.Today, ⟨keyLit, val, !val.isEmpty⟩, stmt.Blockers,
     stmt.LP, stmt.Jira⟩
  | Token.BLOCKERS =>
    ⟨stmt.Yesterday, stmt.Today, stmt.Meetings, ⟨keyLit, val, !val.isEmpty⟩,
     stmt.LP, stmt.Jira⟩
  | Token.LP =>
    ⟨stmt.Yesterday, stmt.Today, stmt.Meetings, stmt.Blockers,
     ⟨keyLit, (isPositive val).1, val, (isPositive val).2.isNone⟩, stmt.Jira⟩
  | Token.JIRA =>
    ⟨stmt.Yesterday, stmt.Today, stmt.Meetings, stmt.Blockers, stmt.LP,
     ⟨keyLit, (isPositive val).1, val, (isPositive val).2.isNone⟩⟩
  | _ => stmt

/-- The Parse loop (parser.go), fueled on the token-stream length. -/
def parseLoopAux : Nat → Statement → List Tok → Statement
  | 0, stmt, _ => stmt
  | f + 1, stmt, l =>
    match parseHead l with
    | Option.none => stmt
    | Option.some g => parseLoopAux f (applyGroup stmt g.key g.keyLit g.values) g.rest

/-- The Parse loop with its canonical (sufficient) fuel. -/
def parseLoop (stmt : Statement) (l : List Tok) : Statement :=
  parseLoopAux (l.length + 1) stmt l

/-- Parse (parser.go): tokenize the input, run the loop from the zero
Statement, and return it together with the error, which is always nil
(the function's only return is stmt, nil). -/
def Parse (input : List Char) : Statement × Option String :=
  (parseLoop emptyStatement (tokenize input), Option.none)

/-- Whether some iteration of the Parse loop takes the keyword-less
default-today branch on the given token stream. -/
def hasDefaultGroupAux : Nat → List Tok → Bool
  | 0, _ => false
  | f + 1, l =>
    match parseHead l with
    | Option.none => false
    | Option.some g => g.isDefault || hasDefaultGroupAux f g.rest

/-- hasDefaultGroup with its canonical fuel. -/
def hasDefaultGroup (l : List Tok) : Bool := hasDefaultGroupAux (l.length + 1) l

/-- The sequence of (key, keyLit, values) groups the Parse loop writes,
in input order. -/
def groupsAux : Nat → List Tok → List (Token × List Char × List (List Char))
  | 0, _ => []
  | f + 1, l =>
    match parseHead l with
    | Option.none => []
    | Option.some g => (g.key, g.keyLit, g.values) :: groupsAux f g.rest

/-- groups with its canonical fuel. -/
def groups (l : List Tok) : List (Token × List Char × List (List Char)) :=
  groupsAux (l.length + 1) l

/-- Fold one group into the statement (the loop body's switch, curried
over the group triple). -/
def applyGroup3 (stmt : Statement) (g : Token × List Char × List (List Char)) :
    Statement :=
  applyGroup stmt g.1 g.2.1 g.2.2

/-- Equality of the statement slot selected by a token kind; trivially
true for non-keyword kinds, which select no slot. -/
def sameSlot (k : Token) (s₁ s₂ : Statement) : Prop :=
  match k with
  | Token.TODAY => s₁.Today = s₂.Today
  | Token.YESTERDAY => s₁.Yesterday = s₂.Yesterday
  | Token.MEETINGS => s₁.Meetings = s₂.Meetings
  | Token.BLOCKERS => s₁.Blockers = s₂.Blockers
  | Token.LP => s₁.LP = s₂.LP
  | Token.JIRA => s₁.Jira = s₂.Jira
  | _ => True






/-! ## Scanner progress, suffix and concatenation lemmas -/

/-- The whitespace loop never grows the remaining input. -/
lemma wsLoop_rest_le (cs : List Char) : (wsLoop cs).2.length ≤ cs.length := by
  induction cs with
  | nil => simp [wsLoop]
  | cons c cs ih =>
    simp only [wsLoop]
    split
    · simp
    · split
      · simp
      · simp only [List.length_cons]; omega

/-- The ident loop never grows the remaining input. -/
lemma identLoop_rest_le (cs : List Char) : (identLoop cs).2.length ≤ cs.length := by
  induction cs with
  | nil => simp [identLoop]
  | cons c cs ih =>
    simp only [identLoop]
    split
    · simp
    · split
      · simp
      · split
        · simp
        · simp only [List.length_cons]; omega

/-- The whitespace loop's remainder is a suffix of its input. -/
lemma wsLoop_suffix (cs : List Char) : (wsLoop cs).2 <:+ cs := by
  induction cs with
  | nil => simp [wsLoop]
  | cons c cs ih =>
    simp only [wsLoop]
    split
    · exact List.suffix_cons c cs
    · split
      · exact List.suffix_refl _
      · exact ih.trans (List.suffix_cons c cs)

/-- The ident loop's remainder is a suffix of its input. -/
lemma identLoop_suffix (cs : List Char) : (identLoop cs).2 <:+ cs := by
  induction cs with
  | nil => simp [identLoop]
  | cons c cs ih =>
    simp only [identLoop]
    split
    · exact List.suffix_cons c cs
    · split
      · exact List.suffix_refl _
      · split
        · exact List.suffix_refl _
        · exact ih.trans (List.suffix_cons c cs)

/-- On NUL-free input the whitespace loop splits its input exactly. -/
lemma wsLoop_append (cs : List Char) (h : ∀ c ∈ cs, c.toNat ≠ 0) :
    (wsLoop cs).1 ++ (wsLoop cs).2 = cs := by
  induction cs with
  | nil => simp [wsLoop]
  | cons c cs ih =>
    simp only [wsLoop]
    split
    next h0 => exact absurd h0 (h c (by simp))
    next =>
      split
      · simp
      · have := ih (fun x hx => h x (List.mem_cons_of_mem _ hx))
        simp [this]

/-- On NUL-free input the ident loop splits its input exactly. -/
lemma identLoop_append (cs : List Char) (h : ∀ c ∈ cs, c.toNat ≠ 0) :
    (identLoop cs).1 ++ (identLoop cs).2 = cs := by
  induction cs with
  | nil => simp [identLoop]
  | cons c cs ih =>
    simp only [identLoop]
    split
    next h0 => exact absurd h0 (h c (by simp))
    next =>
      split
      · simp
      · split
        · simp
        · have := ih (fun x hx => h x (List.mem_cons_of_mem _ hx))
          simp [this]

/-- Sequential lookup only ever returns a table entry or IDENT. -/
lemma lookupKeyword_ne_eof (n : List Char) :
    ∀ tbl : List (List Char × Token), (∀ e ∈ tbl, e.2 ≠ Token.EOF) →
      lookupKeyword n tbl ≠ Token.EOF := by
  intro tbl
  induction tbl with
  | nil => intro _; simp [lookupKeyword]
  | cons e t ih =>
    intro h
    simp only [lookupKeyword]
    split
    · exact h e (by simp)
    · exact ih (fun x hx => h x (List.mem_cons_of_mem _ hx))

/-- The keyword table never yields the EOF kind. -/
lemma keywordFor_ne_eof (n : List Char) : keywordFor n ≠ Token.EOF :=
  lookupKeyword_ne_eof n keywordTable (by decide)

/-- The keyword table never yields the EOF kind, hence neither does
classification. -/
lemma classify_ne_eof (lit : List Char) : classify lit ≠ Token.EOF :=
  keywordFor_ne_eof _

/-- Every Scan call that does not return the EOF token consumes at least
one character of the remaining input. -/
lemma Scan_lt (l : List Char) (hne : (Scan l).1 ≠ Token.EOF) :
    (Scan l).2.2.length < l.length := by
  match l with
  | [] => exact absurd rfl hne
  | c :: cs =>
    simp only [Scan, scanWhitespace, scanIdent]
    split
    · have := wsLoop_rest_le cs; simp only [List.length_cons]; omega
    · split
      next h0 => simp [Scan, h0, *] at hne
      · split
        · simp
        · have := identLoop_rest_le cs; simp only [List.length_cons]; omega

/-- Scan leaves a suffix of its input. -/
lemma Scan_suffix (l : List Char) : (Scan l).2.2 <:+ l := by
  match l with
  | [] => simp [Scan]
  | c :: cs =>
    simp only [Scan, scanWhitespace, scanIdent]
    split
    · exact (wsLoop_suffix cs).trans (List.suffix_cons c cs)
    · split
      · exact List.suffix_cons c cs
      · split
        · exact List.suffix_cons c cs
        · exact (identLoop_suffix cs).trans (List.suffix_cons c cs)

/-- On NUL-free input, Scan returns the EOF token only at the very end. -/
lemma Scan_eof_nil (l : List Char) (h : ∀ c ∈ l, c.toNat ≠ 0)
    (he : (Scan l).1 = Token.EOF) : l = [] := by
  match l with
  | [] => rfl
  | c :: cs =>
    exfalso
    simp only [Scan, scanWhitespace, scanIdent] at he
    split at he
    · exact Token.noConfusion he
    · split at he
      next h0 => exact absurd h0 (h c (by simp))
      · split at he
        · exact Token.noConfusion he
        · exact classify_ne_eof _ he

/-- On NUL-free input, Scan's literal and remainder concatenate back to
the input. -/
lemma Scan_append (l : List Char) (h : ∀ c ∈ l, c.toNat ≠ 0)
    (hne : (Scan l).1 ≠ Token.EOF) :
    (Scan l).2.1 ++ (Scan l).2.2 = l := by
  match l with
  | [] => exact absurd rfl hne
  | c :: cs =>
    simp only [Scan, scanWhitespace, scanIdent]
    split
    · have := wsLoop_append cs (fun x hx => h x (List.mem_cons_of_mem _ hx))
      simp [this]
    · split
      next h0 => exact absurd h0 (h c (by simp))
      · split
        next hc => simp [hc]
        · have := identLoop_append cs (fun x hx => h x (List.mem_cons_of_mem _ hx))
          simp [this]

/-- Concatenating the literals of the fueled token stream reproduces a
NUL-free input. -/
lemma tokenizeAux_concat : ∀ f (l : List Char), l.length < f →
    (∀ c ∈ l, c.toNat ≠ 0) → ((tokenizeAux f l).map Prod.snd).flatten = l := by
  intro f
  induction f with
  | zero => intro l h _; omega
  | succ f ih =>
    intro l hf h0
    simp only [tokenizeAux]
    split
    next he => rw [Scan_eof_nil l h0 he]; simp
    next he =>
      simp only [List.map_cons, List.flatten_cons]
      have hlt := Scan_lt l he
      have hsuf := Scan_suffix l
      have hrec : ((tokenizeAux f (Scan l).2.2).map Prod.snd).flatten = (Scan l).2.2 :=
        ih _ (by omega) (fun c hc => h0 c (hsuf.subset hc))
      rw [hrec, Scan_append l h0 he]

/-- C3 (amended): for every input that contains no NUL character,
running Scan repeatedly until the EOF token and concatenating the
returned literals in order reproduces the input exactly.  (A NUL acts as
Go's end-of-stream sentinel and is dropped, so the unrestricted claim
fails; see the counterexample.) -/
theorem tokenize_literal_roundtrip (cs : List Char) (h : ∀ c ∈ cs, c.toNat ≠ 0) :
    ((tokenize cs).map Prod.snd).flatten = cs :=
  tokenizeAux_concat (cs.length + 1) cs (Nat.lt_succ_self _) h

/-- Witness for the round-trip theorem at a concrete input. -/
theorem tokenize_literal_roundtrip_witness :
    ((tokenize "meetings: hi".data).map Prod.snd).flatten = "meetings: hi".data :=
  tokenize_literal_roundtrip "meetings: hi".data (by decide)

/-- C3 counterexample: an input containing NUL is not reproduced; the
scanner returns the EOF token at the leading NUL and the rest of the
input never appears in any literal. -/
theorem tokenize_literal_roundtrip_cex :
    ¬ ((tokenize [Char.ofNat 0, 'a']).map Prod.snd).flatten = [Char.ofNat 0, 'a'] := by
  decide

/-! ## Parser stream lemmas: progress, suffixes, membership -/

/-- scanIgnoreWhitespace never grows the remaining stream. -/
lemma scanIW_rest_le (l : List Tok) : (scanIW l).2.length ≤ l.length := by
  cases l with
  | nil => simp [scanIW]
  | cons t rest =>
    by_cases hw : t.1 = Token.WS
    · cases rest with
      | nil => simp [scanIW, hw]
      | cons u r => simp [scanIW, hw]; omega
    · simp [scanIW, hw]

/-- A scanIgnoreWhitespace call that returns a non-EOF token consumed at
least one token of the stream. -/
lemma scanIW_lt (l : List Tok) (h : (scanIW l).1.1 ≠ Token.EOF) :
    (scanIW l).2.length < l.length := by
  cases l with
  | nil => exact absurd rfl h
  | cons t rest =>
    by_cases hw : t.1 = Token.WS
    · cases rest with
      | nil => simp [scanIW, hw] at h
      | cons u r => simp [scanIW, hw]; omega
    · simp [scanIW, hw]

/-- scanIgnoreWhitespace leaves a suffix of the stream. -/
lemma scanIW_rest_suffix (l : List Tok) : (scanIW l).2 <:+ l := by
  cases l with
  | nil => simp [scanIW]
  | cons t rest =>
    by_cases hw : t.1 = Token.WS
    · cases rest with
      | nil => simp [scanIW, hw]
      | cons u r =>
        simp only [scanIW, hw, if_pos]
        exact ((List.suffix_cons u r).trans (List.suffix_cons t _))
    · simp only [scanIW, hw, if_neg, ite_false]
      exact List.suffix_cons t rest

/-- Unscanning the token just returned by scanIgnoreWhitespace leaves a
suffix of the original stream (the skipped whitespace, if any, is not
restored). -/
lemma scanIW_restore_suffix (l : List Tok) :
    pushback ((scanIW l).1.1, (scanIW l).1.2.1) (scanIW l).2 <:+ l := by
  cases l with
  | nil => simp [scanIW, pushback]
  | cons t rest =>
    by_cases hw : t.1 = Token.WS
    · cases rest with
      | nil => simp [scanIW, hw, pushback]
      | cons u r =>
        simp only [scanIW, hw, if_pos]
        by_cases he : u.1 = Token.EOF
        · simp only [pushback, he, if_pos]
          exact ((List.suffix_cons u r).trans (List.suffix_cons t _))
        · simp only [pushback, he, if_neg, ite_false, Prod.mk.eta]
          exact List.suffix_cons t (u :: r)
    · simp only [scanIW, hw, if_neg, ite_false]
      by_cases he : t.1 = Token.EOF
      · simp only [pushback, he, if_pos]
        exact List.suffix_cons t rest
      · simp only [pushback, he, if_neg, ite_false, Prod.mk.eta]
        exact List.suffix_rfl

/-- Unscanning after scanIgnoreWhitespace never grows the stream. -/
lemma scanIW_restore_le (l : List Tok) :
    (pushback ((scanIW l).1.1, (scanIW l).1.2.1) (scanIW l).2).length ≤ l.length :=
  (scanIW_restore_suffix l).length_le

/-- The token returned by scanIgnoreWhitespace, when not EOF, is an
element of the stream. -/
lemma scanIW_mem (l : List Tok) (h : (scanIW l).1.1 ≠ Token.EOF) :
    ((scanIW l).1.1, (scanIW l).1.2.1) ∈ l := by
  cases l with
  | nil => exact absurd rfl h
  | cons t rest =>
    by_cases hw : t.1 = Token.WS
    · cases rest with
      | nil => simp [scanIW, hw] at h
      | cons u r => simp [scanIW, hw]
    · simp [scanIW, hw]

/-- The value-collecting loop never grows the remaining stream. -/
lemma parseGroupValuesAux_rest_le :
    ∀ f (l : List Tok), (parseGroupValuesAux f l).2.length ≤ l.length := by
  intro f
  induction f with
  | zero => intro l; simp [parseGroupValuesAux]
  | succ f ih =>
    intro l
    simp only [parseGroupValuesAux]
    split
    next h =>
      rcases Classical.em ((scanIW l).1.1 = Token.EOF) with he | he
      · simp only [pushback, he, if_pos]
        exact scanIW_rest_le l
      · exact scanIW_restore_le l
    next h =>
      have hne : (scanIW l).1.1 ≠ Token.EOF := fun he => h (Or.inr he)
      have h1 := scanIW_lt l hne
      have h2 := ih (scanIW l).2
      split
      · simpa using by omega
      · omega

/-- The value-collecting loop leaves a suffix of the stream. -/
lemma parseGroupValuesAux_rest_suffix :
    ∀ f (l : List Tok), (parseGroupValuesAux f l).2 <:+ l := by
  intro f
  induction f with
  | zero => intro l; simp [parseGroupValuesAux]
  | succ f ih =>
    intro l
    simp only [parseGroupValuesAux]
    split
    next h => exact scanIW_restore_suffix l
    next h =>
      have h2 := (ih (scanIW l).2).trans (scanIW_rest_suffix l)
      split
      · simpa using h2
      · exact h2

/-- The value-collecting loop with canonical fuel never grows the stream. -/
lemma parseGroupValues_rest_le (l : List Tok) :
    (parseGroupValues l).2.length ≤ l.length :=
  parseGroupValuesAux_rest_le _ l

/-- The value-collecting loop with canonical fuel leaves a suffix. -/
lemma parseGroupValues_rest_suffix (l : List Tok) : (parseGroupValues l).2 <:+ l :=
  parseGroupValuesAux_rest_suffix _ l

/-- The optional-colon step never grows the stream. -/
lemma colonSkip_le (l : List Tok) : (colonSkip l).length ≤ l.length := by
  unfold colonSkip
  split
  · exact scanIW_rest_le l
  · exact scanIW_restore_le l

/-- The optional-colon step leaves a suffix of the stream. -/
lemma colonSkip_suffix (l : List Tok) : colonSkip l <:+ l := by
  unfold colonSkip
  split
  · exact scanIW_rest_suffix l
  · exact scanIW_restore_suffix l

/-- Stepping the value loop over a leading non-keyword, non-EOF,
non-whitespace token just consumes it. -/
lemma parseGroupValuesAux_cons_notkw (f : Nat) (t : Tok) (ls : List Tok)
    (hw : t.1 ≠ Token.WS) (hk : isKeyword t.1 = false) (he : t.1 ≠ Token.EOF) :
    (parseGroupValuesAux (f + 1) (t :: ls)).2 = (parseGroupValuesAux f ls).2 := by
  have hs : scanIW (t :: ls) = ((t.1, t.2, []), ls) := by simp [scanIW, hw]
  simp only [parseGroupValuesAux, hs]
  split
  next h =>
    rcases h with h | h
    · rw [hk] at h; exact Bool.noConfusion h
    · exact absurd h he
  next h => split <;> rfl

/-- parseHead on the empty stream stops the loop. -/
lemma parseHead_nil : parseHead [] = Option.none := rfl

/-- Every iteration of the Parse loop consumes at least one token. -/
lemma parseHead_rest_lt (l : List Tok) (g : GroupRes)
    (h : parseHead l = Option.some g) : g.rest.length < l.length := by
  unfold parseHead at h
  by_cases he : (scanIW l).1.1 = Token.EOF
  · rw [if_pos he] at h; exact Option.noConfusion h
  · rw [if_neg he] at h
    by_cases hk : isKeyword (scanIW l).1.1
    · rw [if_pos hk] at h
      cases Option.some.inj h
      have h1 := parseGroupValues_rest_le (colonSkip (scanIW l).2)
      have h2 := colonSkip_le (scanIW l).2
      have h3 := scanIW_lt l he
      simp only []
      omega
    · rw [if_neg hk] at h
      cases Option.some.inj h
      simp only []
      cases l with
      | nil => exact absurd rfl he
      | cons t rest =>
        by_cases hw : t.1 = Token.WS
        · cases rest with
          | nil => exact absurd (by simp [scanIW, hw]) he
          | cons u r =>
            have hs : scanIW (t :: u :: r) = ((u.1, u.2, t.2), r) := by
              simp [scanIW, hw]
            rw [hs] at he ⊢
            simp only [] at he ⊢
            have hp : pushback (u.1, u.2) r = u :: r := by
              simp [pushback, he]
            rw [hp]
            have h1 := parseGroupValues_rest_le (colonSkip (u :: r))
            have h2 := colonSkip_le (u :: r)
            simp only [List.length_cons] at h1 h2 ⊢
            omega
        · have hs : scanIW (t :: rest) = ((t.1, t.2, []), rest) := by
            simp [scanIW, hw]
          rw [hs] at he hk ⊢
          simp only [] at he hk ⊢
          have hp : pushback (t.1, t.2) rest = t :: rest := by
            simp [pushback, he]
          rw [hp]
          by_cases hc : t.1 = Token.COLON
          · have hcs : colonSkip (t :: rest) = rest := by
              simp [colonSkip, hs, hc]
            rw [hcs]
            have h1 := parseGroupValues_rest_le rest
            simp only [List.length_cons]
            omega
          · have hi : t.1 = Token.IDENT := by
              cases ht : t.1 <;> simp_all [isKeyword]
            have hcs : colonSkip (t :: rest) = t :: rest := by
              simp [colonSkip, hs, hc, pushback, he]
            rw [hcs]
            have hstep : (parseGroupValues (t :: rest)).2 =
                (parseGroupValuesAux (rest.length + 1) rest).2 := by
              show (parseGroupValuesAux ((t :: rest).length + 1) (t :: rest)).2 = _
              rw [List.length_cons]
              exact parseGroupValuesAux_cons_notkw (rest.length + 1) t rest hw
                (by simp [hi, isKeyword]) (by simp [hi])
            rw [hstep]
            have h1 := parseGroupValuesAux_rest_le (rest.length + 1) rest
            simp only [List.length_cons]
            omega

/-- Each iteration of the Parse loop leaves a suffix of the stream. -/
lemma parseHead_rest_suffix (l : List Tok) (g : GroupRes)
    (h : parseHead l = Option.some g) : g.rest <:+ l := by
  unfold parseHead at h
  by_cases he : (scanIW l).1.1 = Token.EOF
  · rw [if_pos he] at h; exact Option.noConfusion h
  · rw [if_neg he] at h
    by_cases hk : isKeyword (scanIW l).1.1
    · rw [if_pos hk] at h
      cases Option.some.inj h
      simp only []
      exact ((parseGroupValues_rest_suffix _).trans (colonSkip_suffix _)).trans
        (scanIW_rest_suffix l)
    · rw [if_neg hk] at h
      cases Option.some.inj h
      simp only []
      exact ((parseGroupValues_rest_suffix _).trans (colonSkip_suffix _)).trans
        (scanIW_restore_suffix l)

/-- A non-default group is headed by a keyword token drawn from the
stream. -/
lemma parseHead_key (l : List Tok) (g : GroupRes)
    (h : parseHead l = Option.some g) (hd : g.isDefault = false) :
    isKeyword g.key = true ∧ g.key ∈ l.map Prod.fst := by
  unfold parseHead at h
  by_cases he : (scanIW l).1.1 = Token.EOF
  · rw [if_pos he] at h; exact Option.noConfusion h
  · rw [if_neg he] at h
    by_cases hk : isKeyword (scanIW l).1.1
    · rw [if_pos hk] at h
      cases Option.some.inj h
      exact ⟨hk, List.mem_map_of_mem Prod.fst (scanIW_mem l he)⟩
    · rw [if_neg hk] at h
      cases Option.some.inj h
      exact Bool.noConfusion hd

/-- A default group carries the TODAY keyword and the empty key label. -/
lemma parseHead_default (l : List Tok) (g : GroupRes)
    (h : parseHead l = Option.some g) (hd : g.isDefault = true) :
    g.key = Token.TODAY ∧ g.keyLit = [] := by
  unfold parseHead at h
  by_cases he : (scanIW l).1.1 = Token.EOF
  · rw [if_pos he] at h; exact Option.noConfusion h
  · rw [if_neg he] at h
    by_cases hk : isKeyword (scanIW l).1.1
    · rw [if_pos hk] at h
      cases Option.some.inj h
      exact Bool.noConfusion hd
    · rw [if_neg hk] at h
      cases Option.some.inj h
      exact ⟨rfl, rfl⟩

/-- sameSlot is reflexive. -/
lemma sameSlot_refl (k : Token) (s : Statement) : sameSlot k s s := by
  cases k <;> trivial

/-- sameSlot is transitive. -/
lemma sameSlot_trans (k : Token) (a b c : Statement)
    (h1 : sameSlot k a b) (h2 : sameSlot k b c) : sameSlot k a c := by
  cases k <;> first | trivial | exact h1.trans h2

/-- Writing a group leaves every slot other than its slot of its keyword
unchanged. -/
lemma applyGroup_other (k key : Token) (stmt : Statement) (kl : List Char)
    (vs : List (List Char)) (h : key ≠ k) :
    sameSlot k (applyGroup stmt key kl vs) stmt := by
  cases k <;> cases key <;> first | exact absurd rfl h | trivial

/-- The slot a group writes depends only on the group, not on the
previous statement. -/
lemma applyGroup_same (key : Token) (stmt stmt' : Statement) (kl : List Char)
    (vs : List (List Char)) :
    sameSlot key (applyGroup stmt key kl vs) (applyGroup stmt' key kl vs) := by
  cases key <;> trivial

/-! ## Fuel is irrelevant once it exceeds the input length -/

/-- Any two sufficient fuels tokenize identically. -/
lemma tokenizeAux_fuel_aux : ∀ n f g (l : List Char), f ≤ n → g ≤ n →
    l.length < f → l.length < g → tokenizeAux f l = tokenizeAux g l := by
  intro n
  induction n with
  | zero => intro f g l hf _ h1 _; omega
  | succ n ih =>
    intro f g l hf hg h1 h2
    obtain ⟨f', rfl⟩ : ∃ f', f = f' + 1 := ⟨f - 1, by omega⟩
    obtain ⟨g', rfl⟩ : ∃ g', g = g' + 1 := ⟨g - 1, by omega⟩
    simp only [tokenizeAux]
    split
    · rfl
    next he =>
      have hlt := Scan_lt l he
      congr 1
      exact ih f' g' _ (by omega) (by omega) (by omega) (by omega)

/-- Every fuel beyond the input length computes the canonical token
stream. -/
lemma tokenizeAux_fuel (f : Nat) (l : List Char) (h : l.length < f) :
    tokenizeAux f l = tokenize l :=
  tokenizeAux_fuel_aux (max f (l.length + 1)) f (l.length + 1) l
    (le_max_left _ _) (le_max_right _ _) h (Nat.lt_succ_self _)

/-- Any two sufficient fuels run the Parse loop identically. -/
lemma parseLoopAux_fuel_aux : ∀ n f g (stmt : Statement) (l : List Tok),
    f ≤ n → g ≤ n → l.length < f → l.length < g →
    parseLoopAux f stmt l = parseLoopAux g stmt l := by
  intro n
  induction n with
  | zero => intro f g stmt l hf _ h1 _; omega
  | succ n ih =>
    intro f g stmt l hf hg h1 h2
    obtain ⟨f', rfl⟩ : ∃ f', f = f' + 1 := ⟨f - 1, by omega⟩
    obtain ⟨g', rfl⟩ : ∃ g', g = g' + 1 := ⟨g - 1, by omega⟩
    simp only [parseLoopAux]
    cases hph : parseHead l with
    | none => rfl
    | some gr =>
      have hlt := parseHead_rest_lt l gr hph
      exact ih f' g' (applyGroup stmt gr.key gr.keyLit gr.values) gr.rest
        (by omega) (by omega) (by omega) (by omega)

/-- Every fuel beyond the stream length runs the canonical Parse loop. -/
lemma parseLoopAux_fuel (f : Nat) (stmt : Statement) (l : List Tok)
    (h : l.length < f) : parseLoopAux f stmt l = parseLoop stmt l :=
  parseLoopAux_fuel_aux (max f (l.length + 1)) f (l.length + 1) stmt l
    (le_max_left _ _) (le_max_right _ _) h (Nat.lt_succ_self _)

/-- Any two sufficient fuels agree on hasDefaultGroup. -/
lemma hasDefaultGroupAux_fuel_aux : ∀ n f g (l : List Tok),
    f ≤ n → g ≤ n → l.length < f → l.length < g →
    hasDefaultGroupAux f l = hasDefaultGroupAux g l := by
  intro n
  induction n with
  | zero => intro f g l hf _ h1 _; omega
  | succ n ih =>
    intro f g l hf hg h1 h2
    obtain ⟨f', rfl⟩ : ∃ f', f = f' + 1 := ⟨f - 1, by omega⟩
    obtain ⟨g', rfl⟩ : ∃ g', g = g' + 1 := ⟨g - 1, by omega⟩
    simp only [hasDefaultGroupAux]
    cases hph : parseHead l with
    | none => rfl
    | some gr =>
      have hlt := parseHead_rest_lt l gr hph
      show (gr.isDefault || hasDefaultGroupAux f' gr.rest) =
        (gr.isDefault || hasDefaultGroupAux g' gr.rest)
      congr 1
      exact ih f' g' gr.rest (by omega) (by omega) (by omega) (by omega)

/-- Unfolding hasDefaultGroup by one parse iteration. -/
lemma hasDefaultGroup_some (l : List Tok) (g : GroupRes)
    (h : parseHead l = Option.some g) :
    hasDefaultGroup l = (g.isDefault || hasDefaultGroup g.rest) := by
  have hlt := parseHead_rest_lt l g h
  have e1 : hasDefaultGroup l = (g.isDefault || hasDefaultGroupAux l.length g.rest) := by
    show hasDefaultGroupAux (l.length + 1) l = _
    simp only [hasDefaultGroupAux]
    rw [h]
  rw [e1]
  congr 1
  exact hasDefaultGroupAux_fuel_aux (max l.length (g.rest.length + 1))
    l.length (g.rest.length + 1) g.rest (le_max_left _ _) (le_max_right _ _)
    hlt (Nat.lt_succ_self _)

/-- The Parse loop is the fold of applyGroup over the group sequence. -/
lemma parseLoopAux_eq_foldl : ∀ f (stmt : Statement) (l : List Tok),
    l.length < f →
    parseLoopAux f stmt l = List.foldl applyGroup3 stmt (groupsAux f l) := by
  intro f
  induction f with
  | zero => intro stmt l h; omega
  | succ f ih =>
    intro stmt l hf
    simp only [parseLoopAux, groupsAux]
    cases hph : parseHead l with
    | none => simp
    | some g =>
      simp only [List.foldl_cons]
      have hlt := parseHead_rest_lt l g hph
      exact ih _ g.rest (by omega)

/-- Parse is the fold of the group sequence over the zero statement. -/
lemma parseLoop_eq_foldl (stmt : Statement) (l : List Tok) :
    parseLoop stmt l = List.foldl applyGroup3 stmt (groups l) :=
  parseLoopAux_eq_foldl (l.length + 1) stmt l (Nat.lt_succ_self _)

/-- Slots whose keyword kind never occurs in the stream (and, for Today,
with no default group) pass through the Parse loop unchanged. -/
lemma parseLoopAux_slots : ∀ f (stmt : Statement) (l : List Tok), l.length < f →
    ((Token.YESTERDAY ∉ l.map Prod.fst) →
      (parseLoopAux f stmt l).Yesterday = stmt.Yesterday) ∧
    ((Token.MEETINGS ∉ l.map Prod.fst) →
      (parseLoopAux f stmt l).Meetings = stmt.Meetings) ∧
    ((Token.BLOCKERS ∉ l.map Prod.fst) →
      (parseLoopAux f stmt l).Blockers = stmt.Blockers) ∧
    ((Token.LP ∉ l.map Prod.fst) → (parseLoopAux f stmt l).LP = stmt.LP) ∧
    ((Token.JIRA ∉ l.map Prod.fst) → (parseLoopAux f stmt l).Jira = stmt.Jira) ∧
    ((Token.TODAY ∉ l.map Prod.fst) → hasDefaultGroup l = false →
      (parseLoopAux f stmt l).Today = stmt.Today) := by
  intro f
  induction f with
  | zero => intro stmt l h; omega
  | succ f ih =>
    intro stmt l hf
    cases hph : parseHead l with
    | none =>
      have e : parseLoopAux (f + 1) stmt l = stmt := by
        simp only [parseLoopAux]; rw [hph]
      rw [e]
      exact ⟨fun _ => rfl, fun _ => rfl, fun _ => rfl, fun _ => rfl, fun _ => rfl,
        fun _ _ => rfl⟩
    | some g =>
      have e : parseLoopAux (f + 1) stmt l =
          parseLoopAux f (applyGroup stmt g.key g.keyLit g.values) g.rest := by
        simp only [parseLoopAux]; rw [hph]
      rw [e]
      have hlt := parseHead_rest_lt l g hph
      have hsuf := parseHead_rest_suffix l g hph
      have hsub : ∀ k : Token, k ∈ g.rest.map Prod.fst → k ∈ l.map Prod.fst := by
        intro k hk
        rcases List.mem_map.mp hk with ⟨x, hx, rfl⟩
        exact List.mem_map_of_mem Prod.fst (hsuf.subset hx)
      have hkne : ∀ k : Token, k ≠ Token.TODAY → k ∉ l.map Prod.fst →
          g.key ≠ k := by
        intro k hkt hmem hEq
        rcases Bool.eq_false_or_eq_true g.isDefault with hd | hd
        · rw [(parseHead_default l g hph hd).1] at hEq
          exact hkt hEq.symm
        · exact hmem (hEq ▸ (parseHead_key l g hph hd).2)
      have ihr := ih (applyGroup stmt g.key g.keyLit g.values) g.rest (by omega)
      refine ⟨?_, ?_, ?_, ?_, ?_, ?_⟩
      · intro hmem
        exact (ihr.1 (fun hk => hmem (hsub _ hk))).trans
          (applyGroup_other Token.YESTERDAY g.key stmt g.keyLit g.values
            (hkne _ (by decide) hmem))
      · intro hmem
        exact (ihr.2.1 (fun hk => hmem (hsub _ hk))).trans
          (applyGroup_other Token.MEETINGS g.key stmt g.keyLit g.values
            (hkne _ (by decide) hmem))
      · intro hmem
        exact (ihr.2.2.1 (fun hk => hmem (hsub _ hk))).trans
          (applyGroup_other Token.BLOCKERS g.key stmt g.keyLit g.values
            (hkne _ (by decide) hmem))
      · intro hmem
        exact (ihr.2.2.2.1 (fun hk => hmem (hsub _ hk))).trans
          (applyGroup_other Token.LP g.key stmt g.keyLit g.values
            (hkne _ (by decide) hmem))
      · intro hmem
        exact (ihr.2.2.2.2.1 (fun hk => hmem (hsub _ hk))).trans
          (applyGroup_other Token.JIRA g.key stmt g.keyLit g.values
            (hkne _ (by decide) hmem))
      · intro hmem hdg
        rw [hasDefaultGroup_some l g hph] at hdg
        simp only [Bool.or_eq_false_iff] at hdg
        obtain ⟨hd, hrest⟩ := hdg
        have hkt : g.key ≠ Token.TODAY := by
          intro hEq
          exact hmem (hEq ▸ (parseHead_key l g hph hd).2)
        exact (ihr.2.2.2.2.2 (fun hk => hmem (hsub _ hk)) hrest).trans
          (applyGroup_other Token.TODAY g.key stmt g.keyLit g.values hkt)

/-! ## Claim theorems -/

/-- C1 counterexample: the input "meetings hello" does not produce a
Meetings field with value "hello" — without a colon or line break the
whole line is scanned as one generic word, so the Meetings slot stays
empty. -/
theorem C1_meetings_space_cex :
    ¬ ((Parse "meetings hello".data).1.Meetings.Val = "hello".data) := by
  decide

/-- C1 (amended): "meetings: hello" yields Meetings with key "meetings"
and value "hello", the colon excluded from both; but "meetings hello"
is scanned as the single generic word "meetings hello" and is parsed
into the default Today field with an empty key, leaving Meetings in its
zero state. -/
theorem C1_meetings_colon_split :
    (Parse "meetings: hello".data).1.Meetings =
      ⟨"meetings".data, "hello".data, true⟩ ∧
    (Parse "meetings hello".data).1.Today =
      ⟨[], "meetings hello".data, true⟩ ∧
    (Parse "meetings hello".data).1.Meetings = zeroStringField := by
  decide

/-- C2 counterexample: "not yet" does not classify as (true, unclear):
it contains the negative indicator "no" (inside "not"), so it matches
the negative table. -/
theorem C2_not_yet_cex :
    ¬ ((isPositive "not yet".data).1 = true ∧
       (isPositive "not yet".data).2 = Option.some "unclear") := by
  decide

/-- C2 (amended): "up to date" classifies as Val true, Valid true; but
"not yet" matches the negative table (substring "no" inside "not") and
classifies as Val false, Valid true — exactly what the own test of the repository expects for the Jira field. -/
theorem C2_boolean_inference_examples :
    isPositive "up to date".data = (true, Option.none) ∧
    isPositive "not yet".data = (false, Option.none) ∧
    (Parse "LP: up to date\nJira: not yet".data).1.LP =
      ⟨"LP".data, true, "up to date".data, true⟩ ∧
    (Parse "LP: up to date\nJira: not yet".data).1.Jira =
      ⟨"Jira".data, false, "not yet".data, true⟩ := by
  decide

/-- C4: for every input, Parse returns a Statement (the model's Parse is
a total function) and a nil error — the function's only return site is
(stmt, nil). -/
theorem C4_parse_never_errors (cs : List Char) : (Parse cs).2 = Option.none := rfl

/-- C5: every Statement field whose keyword kind never occurs in the
token stream (and, for Today, for which no keyword-less default group
occurs either) is returned in its zero state; a group only ever writes
the slot selected by its leading keyword. -/
theorem C5_unmentioned_fields_zero (cs : List Char) :
    ((Token.YESTERDAY ∉ (tokenize cs).map Prod.fst) →
      (Parse cs).1.Yesterday = zeroStringField) ∧
    ((Token.MEETINGS ∉ (tokenize cs).map Prod.fst) →
      (Parse cs).1.Meetings = zeroStringField) ∧
    ((Token.BLOCKERS ∉ (tokenize cs).map Prod.fst) →
      (Parse cs).1.Blockers = zeroStringField) ∧
    ((Token.LP ∉ (tokenize cs).map Prod.fst) → (Parse cs).1.LP = zeroBoolField) ∧
    ((Token.JIRA ∉ (tokenize cs).map Prod.fst) → (Parse cs).1.Jira = zeroBoolField) ∧
    ((Token.TODAY ∉ (tokenize cs).map Prod.fst) →
      hasDefaultGroup (tokenize cs) = false →
      (Parse cs).1.Today = zeroStringField) :=
  parseLoopAux_slots ((tokenize cs).length + 1) emptyStatement (tokenize cs)
    (Nat.lt_succ_self _)

/-- Witness for C5 at the input "meetings: hi", whose token stream
mentions only the meetings keyword and has no default group. -/
theorem C5_unmentioned_fields_zero_witness :
    (Parse "meetings: hi".data).1.Yesterday = zeroStringField ∧
    (Parse "meetings: hi".data).1.Blockers = zeroStringField ∧
    (Parse "meetings: hi".data).1.LP = zeroBoolField ∧
    (Parse "meetings: hi".data).1.Jira = zeroBoolField ∧
    (Parse "meetings: hi".data).1.Today = zeroStringField :=
  ⟨(C5_unmentioned_fields_zero _).1 (by decide),
   (C5_unmentioned_fields_zero _).2.2.1 (by decide),
   (C5_unmentioned_fields_zero _).2.2.2.1 (by decide),
   (C5_unmentioned_fields_zero _).2.2.2.2.1 (by decide),
   (C5_unmentioned_fields_zero _).2.2.2.2.2 (by decide) (by decide)⟩

/-- C6: each Scan call either returns the EOF token or consumes at least
one character; each iteration of the Parse loop consumes at least one
token; consequently any fuel beyond the input length computes the same
(canonical) tokenization and parse — the whole parse terminates within
input-length many steps. -/
theorem C6_parse_terminates :
    (∀ cs : List Char, (Scan cs).1 = Token.EOF ∨ (Scan cs).2.2.length < cs.length) ∧
    (∀ (l : List Tok) (g : GroupRes), parseHead l = Option.some g →
      g.rest.length < l.length) ∧
    (∀ (f : Nat) (cs : List Char), cs.length < f → tokenizeAux f cs = tokenize cs) ∧
    (∀ (f : Nat) (stmt : Statement) (l : List Tok), l.length < f →
      parseLoopAux f stmt l = parseLoop stmt l) := by
  refine ⟨?_, parseHead_rest_lt, tokenizeAux_fuel, parseLoopAux_fuel⟩
  intro cs
  by_cases h : (Scan cs).1 = Token.EOF
  · exact Or.inl h
  · exact Or.inr (Scan_lt cs h)

/-- Witness for C6 at concrete inputs. -/
theorem C6_parse_terminates_witness :
    (GroupRes.rest ⟨true, Token.TODAY, [], [[], ['h']], []⟩).length <
      [((Token.IDENT : Token), ['h'])].length ∧
    tokenizeAux 3 ['a'] = tokenize ['a'] ∧
    parseLoopAux 2 emptyStatement [(Token.IDENT, ['a'])] =
      parseLoop emptyStatement [(Token.IDENT, ['a'])] :=
  ⟨C6_parse_terminates.2.1 [(Token.IDENT, ['h'])]
      ⟨true, Token.TODAY, [], [[], ['h']], []⟩ (by decide),
   C6_parse_terminates.2.2.1 3 ['a'] (by decide),
   C6_parse_terminates.2.2.2 2 emptyStatement [(Token.IDENT, ['a'])] (by decide)⟩

/-- C7: boolean classification follows the four-case policy of
isPositive, and it succeeds (nil error, hence Valid) exactly when one
table matches and the other does not. -/
theorem C7_isPositive_policy (s : List Char) :
    (posMatch s = true → negMatch s = false → isPositive s = (true, Option.none)) ∧
    (posMatch s = false → negMatch s = true → isPositive s = (false, Option.none)) ∧
    (posMatch s = true → negMatch s = true →
      isPositive s = (true, Option.some "ambiguous")) ∧
    (posMatch s = false → negMatch s = false →
      isPositive s = (true, Option.some "unclear")) ∧
    ((isPositive s).2 = Option.none ↔ posMatch s ≠ negMatch s) := by
  cases hp : posMatch s <;> cases hn : negMatch s <;> simp [isPositive, hp, hn]

/-- Witness for C7: one input per policy case. -/
theorem C7_isPositive_policy_witness :
    isPositive "yes".data = (true, Option.none) ∧
    isPositive "no".data = (false, Option.none) ∧
    isPositive "no, done".data = (true, Option.some "ambiguous") ∧
    isPositive "hmm".data = (true, Option.some "unclear") :=
  ⟨(C7_isPositive_policy _).1 (by decide) (by decide),
   (C7_isPositive_policy _).2.1 (by decide) (by decide),
   (C7_isPositive_policy _).2.2.1 (by decide) (by decide),
   (C7_isPositive_policy _).2.2.2.1 (by decide) (by decide)⟩

/-- The groups earlier in the stream cannot change the slot written by
the last group of a given kind. -/
lemma foldl_untouched (k : Token) :
    ∀ (gs : List (Token × List Char × List (List Char))) (st : Statement),
      (∀ g' ∈ gs, g'.1 ≠ k) →
      sameSlot k (List.foldl applyGroup3 st gs) st := by
  intro gs
  induction gs with
  | nil => intro st _; exact sameSlot_refl k st
  | cons a t ih =>
    intro st h
    simp only [List.foldl_cons]
    exact sameSlot_trans k _ _ _
      (ih (applyGroup3 st a) (fun x hx => h x (List.mem_cons_of_mem _ hx)))
      (applyGroup_other k a.1 st a.2.1 a.2.2 (h a (by simp)))

/-- C8: when the group sequence of an input splits as gs1 ++ g :: gs2
with no later group of the kind of g in gs2, the final Statement's slot for
that kind is exactly the one written by g alone (last occurrence wins;
earlier content is discarded). -/
theorem C8_last_group_wins (cs : List Char)
    (gs₁ gs₂ : List (Token × List Char × List (List Char)))
    (g : Token × List Char × List (List Char))
    (hsplit : groups (tokenize cs) = gs₁ ++ g :: gs₂)
    (hlast : ∀ g' ∈ gs₂, g'.1 ≠ g.1) :
    sameSlot g.1 (Parse cs).1 (applyGroup emptyStatement g.1 g.2.1 g.2.2) := by
  have e : (Parse cs).1 =
      List.foldl applyGroup3 emptyStatement (groups (tokenize cs)) :=
    parseLoop_eq_foldl emptyStatement (tokenize cs)
  rw [e, hsplit, List.foldl_append, List.foldl_cons]
  exact sameSlot_trans _ _ _ _
    (foldl_untouched g.1 gs₂ _ hlast)
    (applyGroup_same g.1 (List.foldl applyGroup3 emptyStatement gs₁)
      emptyStatement g.2.1 g.2.2)

/-- Witness for C8: "meetings" appears twice; the final Meetings slot is
the one the second group writes. -/
theorem C8_last_group_wins_witness :
    sameSlot Token.MEETINGS (Parse "meetings: a\nmeetings: b".data).1
      (applyGroup emptyStatement Token.MEETINGS "meetings".data
        [" ".data, "b".data]) :=
  C8_last_group_wins "meetings: a\nmeetings: b".data
    [(Token.MEETINGS, "meetings".data, [" ".data, "a".data])] []
    (Token.MEETINGS, "meetings".data, [" ".data, "b".data])
    (by decide) (by simp)

/-- C9: whenever the whitespace-skipped candidate token is neither EOF
nor a keyword, the iteration is a default group: the token is pushed
back and the group proceeds as "today" with an empty key label; in
particular "working on something" fills only the Today field, with an
empty key. -/
theorem C9_no_keyword_defaults_today :
    (∀ l : List Tok, (scanIW l).1.1 ≠ Token.EOF →
      isKeyword (scanIW l).1.1 = false →
      Option.map GroupRes.isDefault (parseHead l) = Option.some true ∧
      Option.map GroupRes.key (parseHead l) = Option.some Token.TODAY ∧
      Option.map GroupRes.keyLit (parseHead l) = Option.some []) ∧
    (Parse "working on something".data).1 =
      ⟨zeroStringField, ⟨[], "working on something".data, true⟩, zeroStringField,
       zeroStringField, zeroBoolField, zeroBoolField⟩ := by
  constructor
  · intro l he hk
    unfold parseHead
    rw [if_neg he, if_neg (by simp [hk])]
    exact ⟨rfl, rfl, rfl⟩
  · decide

/-- Witness for C9 at the token stream of "working on something". -/
theorem C9_no_keyword_defaults_today_witness :
    Option.map GroupRes.isDefault (parseHead (tokenize "working on something".data)) =
      Option.some true ∧
    Option.map GroupRes.key (parseHead (tokenize "working on something".data)) =
      Option.some Token.TODAY ∧
    Option.map GroupRes.keyLit (parseHead (tokenize "working on something".data)) =
      Option.some [] :=
  C9_no_keyword_defaults_today.1 _ (by decide) (by decide)

/-- C10 counterexample: in "ab NUL cd" the character c, which lies after
the first NUL, appears in a returned literal — the NUL inside a word is
consumed silently and scanning continues after it. -/
theorem C10_nul_midword_cex :
    'c' ∈ ((tokenize ("ab".data ++ [Char.ofNat 0] ++ "cd".data)).map
      Prod.snd).flatten := by
  decide

/-- C10 (amended): a NUL at the start of a Scan call is treated as
end-of-input (EOF token, NUL consumed) and the parser drops the rest;
but a NUL strictly inside a word merely terminates that word token, is
consumed and excluded, and scanning continues with the characters after
it. -/
theorem C10_nul_behavior :
    (∀ cs : List Char, Scan (Char.ofNat 0 :: cs) = (Token.EOF, [], cs)) ∧
    (∀ cs : List Char, tokenize (Char.ofNat 0 :: cs) = []) ∧
    tokenize ("ab".data ++ [Char.ofNat 0] ++ "cd".data) =
      [(Token.IDENT, "ab".data), (Token.IDENT, "cd".data)] := by
  have hscan : ∀ cs : List Char, Scan (Char.ofNat 0 :: cs) = (Token.EOF, [], cs) := by
    intro cs
    have h1 : isWhitespace (Char.ofNat 0) = false := by decide
    have h2 : (Char.ofNat 0).toNat = 0 := rfl
    simp [Scan, h1, h2]
  refine ⟨hscan, ?_, by decide⟩
  intro cs
  show tokenizeAux ((Char.ofNat 0 :: cs).length + 1) (Char.ofNat 0 :: cs) = []
  rw [List.length_cons]
  simp [tokenizeAux, hscan]
